import Mathlib

/-!
Verification of the task-execution engine (`invoke/executor.py`).

The core under verification is `Executor.execute`: given a root task name it
expands the one-level prerequisite chain, optionally deduplicates it, invokes
each task in order with a shared keyword mapping and an optional configuration
context, and returns the root task's result.

The collaborator classes (`Task`, `Collection`, `Context`) are not part of the
source tree under verification; they are modelled from the spec's collaborator
contracts.  The executor algorithm itself is a line-by-line shallow embedding
of `Executor.execute` in `src/invoke/executor.py`.

Task bodies are external invocables whose return values the executor merely
records; we model the sequence of values they produce by an oracle
`Nat → Nat` indexed by the invocation counter of one `execute` call, and the
externally owned side effect "invocation sets `called := true`" (spec §4.1)
as an update of the collection state threaded through the loop.
-/

set_option autoImplicit false

deriving instance DecidableEq for Except

namespace Invoke

/-- Configuration mappings, keyword-argument mappings and result records are
all string-keyed finite mappings; we model them as association lists
(Python `dict` with unique keys; insertion order preserved). -/
abbrev KVMap := List (String × Nat)

/-- Modelled from the spec (§3, §4.1): a `Task` is a named unit of work with a
declared single-level prerequisite name list, a `contextualized` flag and a
mutable session-wide `called` flag.  The invocable body is external and is
modelled by the invocation oracle, not stored here. -/
structure Task where
  name : String
  pre : List String
  contextualized : Bool
  called : Bool
deriving DecidableEq, Repr

/-- Lookup in an association list keyed by strings: first entry whose key
matches (Python `dict` lookup; keys are unique in a dict). -/
def assocGet : KVMap → String → Option Nat
  | [], _ => none
  | (k, v) :: rest, n => if k = n then some v else assocGet rest n

/-- Assignment `d[k] = v` in a string-keyed mapping: overwrite the existing
entry for `k` in place, or append a new entry (Python `dict` assignment). -/
def assocSet : KVMap → String → Nat → KVMap
  | [], k, v => [(k, v)]
  | (k', v') :: rest, k, v =>
    if k' = k then (k', v) :: rest else (k', v') :: assocSet rest k v

/-- Modelled from the spec (§4.3): a `Context` is a mapping of configuration
keys to values supporting value-independent copy and in-place merge. -/
abbrev Ctx := KVMap

/-- Modelled from the spec (§4.3): `Context.update(mapping)` merges the keys
of `mapping` into the receiver, overriding existing keys.  Applied to a
`clone()` of the base context, so the base itself is never mutated; the
clone is value-independent, which in a pure embedding is just the value. -/
def ctxUpdate (base : Ctx) (m : KVMap) : Ctx :=
  m.foldl (fun acc p => assocSet acc p.1 p.2) base

/-- Modelled from the spec (§3, §4.2): a `Collection` maps dotted names to
tasks (unique keys) and supplies per-task configuration; `configuration`
never fails for a valid name, so absent entries yield the empty mapping. -/
structure Collection where
  tasks : List (String × Task)
  config : List (String × KVMap)
deriving DecidableEq, Repr

/-- First-match lookup in the task registry. -/
def lookupTask : List (String × Task) → String → Option Task
  | [], _ => none
  | (k, t) :: rest, n => if k = n then some t else lookupTask rest n

/-- Modelled from the spec (§4.2): `Collection.lookup(name)` — `none` models
the `TaskNotFound` failure of `self.collection[name]`. -/
def Collection.lookup (c : Collection) (n : String) : Option Task :=
  lookupTask c.tasks n

/-- Configuration lookup helper on the raw config table. -/
def configLookup : List (String × KVMap) → String → KVMap
  | [], _ => []
  | (k, m) :: rest, n => if k = n then m else configLookup rest n

/-- Modelled from the spec (§4.2): `Collection.configuration(name)` returns
the merged configuration applicable to that task. -/
def Collection.configuration (c : Collection) (n : String) : KVMap :=
  configLookup c.config n

/-- Modelled from the spec (§4.1): successful invocation sets the task's
`called` flag to `true`; the flag lives on the task stored in the
collection, so the update is an update of the collection state. -/
def Collection.setCalled (c : Collection) (n : String) : Collection :=
  { c with
    tasks := c.tasks.map fun p =>
      if p.1 = n then (p.1, { p.2 with called := true }) else p }

/-- One recorded task invocation: the collection key that was executed, the
task value as looked up at invocation time, the leading context argument
(`none` when the task is not contextualized) and the keyword mapping. -/
structure Invocation where
  tname : String
  task : Task
  ctx : Option Ctx
  kwargs : KVMap
deriving DecidableEq, Repr

/-- The failures `execute` can surface: `taskNotFound` models the
`TaskNotFound` raised by collection lookup, `missingResult` models the
lookup error on `results[task]` when the root's result was never computed. -/
inductive ExecError where
  | taskNotFound (n : String)
  | missingResult
deriving DecidableEq, Repr

/-- Embedding of `Executor.__init__`: a handle to the collection and the
configuration context (a blank context when none is given). -/
structure Executor where
  collection : Collection
  context : Ctx
deriving DecidableEq, Repr

/-- Embedding of the compaction loop of `Executor.execute` (lines 64-69):
`for tname in task_names: if tname not in compact_tasks:
compact_tasks.append(tname)`. -/
def compact (task_names : List String) : List String :=
  task_names.foldl (fun acc n => if n ∈ acc then acc else acc ++ [n]) []

/-- Embedding of the already-called filter of `Executor.execute`
(lines 70-75): `for tname in compact_tasks: if not
self.collection[tname].called: tasks.append(tname)`; the lookup
`self.collection[tname]` raises `TaskNotFound` for an unresolvable name. -/
def filterCalled (c : Collection) : List String → Except ExecError (List String)
  | [] => .ok []
  | n :: rest =>
    match c.lookup n with
    | none => .error (.taskNotFound n)
    | some t =>
      match filterCalled c rest with
      | .error e => .error e
      | .ok rest' => .ok (if t.called then rest' else n :: rest')

/-- Output of the execution loop: the outcome (`ok` or the error that aborted
the loop), the collection state, the results record and the invocation
trace accumulated so far. -/
structure LoopOut where
  outcome : Except ExecError Unit
  coll : Collection
  results : KVMap
  trace : List Invocation
deriving DecidableEq, Repr

/-- Embedding of the execution loop of `Executor.execute` (lines 80-89):
for each name, resolve the task (raising `TaskNotFound` on failure), build
the leading context argument when the task is contextualized, invoke the
task (recording the invocation and its oracle-given result, and setting
the task's `called` flag as the externally owned side effect of
invocation), keyed into `results` by the task's collection name (task
identity is by name within a collection, spec §4.1). -/
def execLoop (oracle : Nat → Nat) (kwargs : KVMap) (base : Ctx) :
    Nat → Collection → KVMap → List Invocation → List String → LoopOut
  | _, coll, results, trace, [] => ⟨.ok (), coll, results, trace⟩
  | idx, coll, results, trace, tname :: rest =>
    match coll.lookup tname with
    | none => ⟨.error (.taskNotFound tname), coll, results, trace⟩
    | some t =>
      let ctxArg : Option Ctx :=
        if t.contextualized then
          some (ctxUpdate base (coll.configuration tname))
        else none
      execLoop oracle kwargs base (idx + 1) (coll.setCalled tname)
        (assocSet results tname (oracle idx))
        (trace ++ [⟨tname, t, ctxArg, kwargs⟩]) rest

/-- The observable outcome of one `execute` call: the returned value or the
error raised, the collection state after the call (the `called` flags
mutated by the invocations that did run persist even when an error
aborts the call), and the trace of invocations performed. -/
structure ExecOut where
  result : Except ExecError Nat
  coll : Collection
  trace : List Invocation
deriving DecidableEq, Repr

/-- Embedding of `Executor.execute(name, kwargs=None, dedupe=True)`
(executor.py lines 27-90):
1. `kwargs = kwargs or {}`;
2. resolve the root task (`TaskNotFound` when unresolvable);
3. `task_names = list(task.pre) + [name]` — one level of prerequisites;
4. when `dedupe`: compact exact duplicates to first occurrence, then drop
   names whose task is already `called`; otherwise run `task_names` as is;
5. run the execution loop;
6. return `results[task]` for the root task — a lookup error
   (`missingResult`) when no result was recorded for it. -/
def Executor.execute (e : Executor) (oracle : Nat → Nat) (name : String)
    (kwargsOpt : Option KVMap) (dedupe : Bool) : ExecOut :=
  let kwargs := kwargsOpt.getD []
  match e.collection.lookup name with
  | none => ⟨.error (.taskNotFound name), e.collection, []⟩
  | some task =>
    let task_names := task.pre ++ [name]
    let tasksR : Except ExecError (List String) :=
      if dedupe then filterCalled e.collection (compact task_names)
      else .ok task_names
    match tasksR with
    | .error err => ⟨.error err, e.collection, []⟩
    | .ok tasks =>
      match execLoop oracle kwargs e.context 0 e.collection [] [] tasks with
      | ⟨.error err, coll', _, trace⟩ => ⟨.error err, coll', trace⟩
      | ⟨.ok _, coll', results, trace⟩ =>
        match assocGet results name with
        | none => ⟨.error .missingResult, coll', trace⟩
        | some v => ⟨.ok v, coll', trace⟩

/-! ### Basic lemmas about the mapping operations -/

theorem assocGet_assocSet (m : KVMap) (k : String) (v : Nat) (n : String) :
    assocGet (assocSet m k v) n = if k = n then some v else assocGet m n := by
  induction m with
  | nil => simp [assocSet, assocGet]
  | cons p rest ih =>
    obtain ⟨k', v'⟩ := p
    by_cases hk : k' = k
    · subst hk
      by_cases hn : k' = n <;> simp [assocSet, assocGet, hn]
    · by_cases hn : k' = n
      · subst hn
        rw [assocSet, if_neg hk, assocGet, if_pos rfl,
          if_neg (fun h => hk h.symm), assocGet, if_pos rfl]
      · rw [assocSet, if_neg hk, assocGet, if_neg hn, ih]
        by_cases hkn : k = n <;> simp [hkn, assocGet, hn]

theorem lookupTask_setCalled (l : List (String × Task)) (m n : String) :
    lookupTask
        (l.map fun p => if p.1 = m then (p.1, { p.2 with called := true }) else p) n
      = (lookupTask l n).map
          (fun t => if n = m then { t with called := true } else t) := by
  induction l with
  | nil => simp [lookupTask]
  | cons p rest ih =>
    obtain ⟨k, t⟩ := p
    rw [List.map_cons]
    show lookupTask
        ((if k = m then (k, { t with called := true }) else (k, t)) :: _) n = _
    by_cases hk : k = m
    · rw [if_pos hk]
      by_cases hn : k = n
      · subst hn
        rw [lookupTask, if_pos rfl, lookupTask, if_pos rfl]
        simp [hk]
      · rw [lookupTask, if_neg hn, lookupTask, if_neg hn, ih]
    · rw [if_neg hk]
      by_cases hn : k = n
      · subst hn
        rw [lookupTask, if_pos rfl, lookupTask, if_pos rfl]
        simp [hk]
      · rw [lookupTask, if_neg hn, lookupTask, if_neg hn, ih]

theorem lookup_setCalled (c : Collection) (m n : String) :
    (c.setCalled m).lookup n
      = (c.lookup n).map (fun t => if n = m then { t with called := true } else t) := by
  simp [Collection.lookup, Collection.setCalled, lookupTask_setCalled]

theorem lookup_setCalled_isSome (c : Collection) (m n : String) :
    ((c.setCalled m).lookup n).isSome = ((c.lookup n).isSome) := by
  simp [lookup_setCalled]

theorem setCalled_configuration (c : Collection) (m n : String) :
    (c.setCalled m).configuration n = c.configuration n := rfl

theorem setCalled_config (c : Collection) (m : String) :
    (c.setCalled m).config = c.config := rfl

/-! ### The compaction step -/

/-- Reference form of first-occurrence duplicate removal: keep the head,
drop its later duplicates, recurse.  `compact` (the loop from the code)
is proved equal to it. -/
def specCompact : List String → List String
  | [] => []
  | a :: l => a :: specCompact (l.filter fun x => x ≠ a)
termination_by l => l.length
decreasing_by
  simp only [List.length_cons]
  exact Nat.lt_succ_of_le (List.length_filter_le _ _)

theorem specCompact_nil : specCompact [] = [] := by
  simp [specCompact]

theorem specCompact_cons (a : String) (l : List String) :
    specCompact (a :: l) = a :: specCompact (l.filter fun x => x ≠ a) := by
  simp [specCompact]

theorem mem_specCompact (x : String) : ∀ l : List String, x ∈ specCompact l ↔ x ∈ l
  | [] => by simp [specCompact_nil]
  | a :: l => by
    rw [specCompact_cons]
    by_cases hx : x = a
    · simp [hx]
    · have := mem_specCompact x (l.filter fun x => x ≠ a)
      simp only [List.mem_cons, this, List.mem_filter, decide_eq_true_eq]
      constructor
      · rintro (h | ⟨h, _⟩)
        · exact Or.inl h
        · exact Or.inr h
      · rintro (h | h)
        · exact Or.inl h
        · exact Or.inr ⟨h, hx⟩
termination_by l => l.length
decreasing_by
  simp only [List.length_cons]
  exact Nat.lt_succ_of_le (List.length_filter_le _ _)

theorem specCompact_nodup : ∀ l : List String, (specCompact l).Nodup
  | [] => by simp [specCompact_nil]
  | a :: l => by
    rw [specCompact_cons]
    refine List.nodup_cons.2 ⟨?_, specCompact_nodup (l.filter fun x => x ≠ a)⟩
    intro hmem
    have := (mem_specCompact a _).1 hmem
    simp [List.mem_filter] at this
termination_by l => l.length
decreasing_by
  simp only [List.length_cons]
  exact Nat.lt_succ_of_le (List.length_filter_le _ _)

theorem specCompact_of_nodup : ∀ l : List String, l.Nodup → specCompact l = l
  | [], _ => specCompact_nil
  | a :: l, h => by
    rw [specCompact_cons]
    have ha : a ∉ l := (List.nodup_cons.1 h).1
    have hfl : l.filter (fun x => x ≠ a) = l := by
      rw [List.filter_eq_self]
      intro x hx
      simp only [decide_eq_true_eq]
      intro hxa
      exact ha (hxa ▸ hx)
    rw [hfl, specCompact_of_nodup l (List.nodup_cons.1 h).2]
termination_by l => l.length
decreasing_by
  simp

theorem compact_go (l acc : List String) :
    l.foldl (fun acc n => if n ∈ acc then acc else acc ++ [n]) acc
      = acc ++ specCompact (l.filter fun x => x ∉ acc) := by
  induction l generalizing acc with
  | nil => simp [specCompact_nil]
  | cons a l ih =>
    by_cases ha : a ∈ acc
    · rw [List.foldl_cons, if_pos ha, ih]
      have : (a :: l).filter (fun x => x ∉ acc) = l.filter (fun x => x ∉ acc) := by
        simp [List.filter_cons, ha]
      rw [this]
    · rw [List.foldl_cons, if_neg ha, ih]
      have h1 : (a :: l).filter (fun x => x ∉ acc)
          = a :: l.filter (fun x => x ∉ acc) := by
        simp [List.filter_cons, ha]
      rw [h1, specCompact_cons, List.filter_filter]
      have h2 : l.filter (fun x => (x ∉ acc ++ [a] : Prop))
          = l.filter (fun x => (decide (x ≠ a) && decide (x ∉ acc))) := by
        apply List.filter_congr
        intro x _
        by_cases hxa : x = a <;> by_cases hxacc : x ∈ acc <;>
          simp [hxa, hxacc]
      rw [h2]
      simp

theorem compact_eq_specCompact (l : List String) : compact l = specCompact l := by
  rw [compact, compact_go]
  simp

theorem mem_compact (x : String) (l : List String) : x ∈ compact l ↔ x ∈ l := by
  rw [compact_eq_specCompact]
  exact mem_specCompact x l

theorem compact_nodup (l : List String) : (compact l).Nodup := by
  rw [compact_eq_specCompact]
  exact specCompact_nodup l

theorem compact_of_nodup (l : List String) (h : l.Nodup) : compact l = l := by
  rw [compact_eq_specCompact]
  exact specCompact_of_nodup l h

/-! ### Lemmas about the already-called filter -/

theorem filterCalled_sublist (c : Collection) :
    ∀ {l out : List String}, filterCalled c l = .ok out → out.Sublist l := by
  intro l
  induction l with
  | nil =>
    intro out h
    simp only [filterCalled] at h
    cases h
    exact List.Sublist.refl []
  | cons n rest ih =>
    intro out h
    simp only [filterCalled] at h
    cases hl : c.lookup n with
    | none => rw [hl] at h; cases h
    | some t =>
      rw [hl] at h
      cases hr : filterCalled c rest with
      | error e => rw [hr] at h; cases h
      | ok rest' =>
        rw [hr] at h
        cases h
        by_cases hc : t.called = true
        · simp only [hc, if_pos]
          exact (ih hr).cons n
        · simp only [eq_false_of_ne_true hc, if_neg Bool.false_ne_true]
          exact (ih hr).cons₂ n

theorem filterCalled_ok_mem (c : Collection) :
    ∀ {l out : List String}, filterCalled c l = .ok out → ∀ x ∈ out,
      x ∈ l ∧ ∃ t, c.lookup x = some t ∧ t.called = false := by
  intro l
  induction l with
  | nil =>
    intro out h x hx
    simp only [filterCalled] at h
    cases h
    cases hx
  | cons n rest ih =>
    intro out h x hx
    simp only [filterCalled] at h
    cases hl : c.lookup n with
    | none => rw [hl] at h; cases h
    | some t =>
      rw [hl] at h
      cases hr : filterCalled c rest with
      | error e => rw [hr] at h; cases h
      | ok rest' =>
        rw [hr] at h
        cases h
        by_cases hc : t.called = true
        · rw [if_pos hc] at hx
          obtain ⟨hmem, ht⟩ := ih hr x hx
          exact ⟨List.mem_cons_of_mem n hmem, ht⟩
        · rw [if_neg hc] at hx
          rcases List.mem_cons.1 hx with hx | hx
          · subst hx
            exact ⟨List.mem_cons_self x rest,
              t, hl, Bool.not_eq_true t.called ▸ hc⟩
          · obtain ⟨hmem, ht⟩ := ih hr x hx
            exact ⟨List.mem_cons_of_mem n hmem, ht⟩

theorem filterCalled_nodup (c : Collection) {l out : List String}
    (hn : l.Nodup) (h : filterCalled c l = .ok out) : out.Nodup :=
  (filterCalled_sublist c h).nodup hn

theorem filterCalled_err (c : Collection) :
    ∀ {l : List String}, (∃ b ∈ l, c.lookup b = none) →
      ∃ b, c.lookup b = none ∧ filterCalled c l = .error (.taskNotFound b) := by
  intro l
  induction l with
  | nil =>
    rintro ⟨b, hb, -⟩
    cases hb
  | cons n rest ih =>
    rintro ⟨b, hb, hnone⟩
    cases hl : c.lookup n with
    | none => exact ⟨n, hl, by simp [filterCalled, hl]⟩
    | some t =>
      rcases List.mem_cons.1 hb with rfl | hb
      · rw [hl] at hnone; cases hnone
      · obtain ⟨b', hb', herr⟩ := ih ⟨b, hb, hnone⟩
        exact ⟨b', hb', by simp [filterCalled, hl, herr]⟩

theorem filterCalled_id (c : Collection) :
    ∀ {l : List String}, (∀ n ∈ l, ∃ t, c.lookup n = some t ∧ t.called = false) →
      filterCalled c l = .ok l := by
  intro l
  induction l with
  | nil => intro; rfl
  | cons n rest ih =>
    intro h
    obtain ⟨t, hl, hc⟩ := h n (List.mem_cons_self n rest)
    have hrest := ih fun m hm => h m (List.mem_cons_of_mem n hm)
    simp [filterCalled, hl, hrest, hc]

theorem filterCalled_isOk (c : Collection) :
    ∀ {l : List String}, (∀ n ∈ l, (c.lookup n).isSome) →
      ∃ out, filterCalled c l = .ok out := by
  intro l
  induction l with
  | nil => exact fun _ => ⟨[], rfl⟩
  | cons n rest ih =>
    intro h
    cases hl : c.lookup n with
    | none =>
      have := h n (List.mem_cons_self n rest)
      rw [hl] at this
      cases this
    | some t =>
      obtain ⟨out, hout⟩ := ih fun m hm => h m (List.mem_cons_of_mem n hm)
      exact ⟨if t.called then out else n :: out, by simp [filterCalled, hl, hout]⟩

/-! ### Lemmas about the execution loop -/

theorem execLoop_nil (o : Nat → Nat) (k : KVMap) (b : Ctx) (i : Nat)
    (c : Collection) (r : KVMap) (tr : List Invocation) :
    execLoop o k b i c r tr [] = ⟨.ok (), c, r, tr⟩ := rfl

theorem execLoop_cons_none (o : Nat → Nat) (k : KVMap) (b : Ctx) (i : Nat)
    (c : Collection) (r : KVMap) (tr : List Invocation) {n : String}
    (rest : List String) (h : c.lookup n = none) :
    execLoop o k b i c r tr (n :: rest) = ⟨.error (.taskNotFound n), c, r, tr⟩ := by
  simp [execLoop, h]

theorem execLoop_cons_some (o : Nat → Nat) (k : KVMap) (b : Ctx) (i : Nat)
    (c : Collection) (r : KVMap) (tr : List Invocation) {n : String} {t : Task}
    (rest : List String) (h : c.lookup n = some t) :
    execLoop o k b i c r tr (n :: rest)
      = execLoop o k b (i + 1) (c.setCalled n) (assocSet r n (o i))
          (tr ++ [⟨n, t,
            if t.contextualized then some (ctxUpdate b (c.configuration n))
            else none, k⟩]) rest := by
  simp [execLoop, h]

theorem execLoop_ok (o : Nat → Nat) (k : KVMap) (b : Ctx) :
    ∀ (l : List String) (i : Nat) (c : Collection) (r : KVMap)
      (tr : List Invocation), (∀ n ∈ l, (c.lookup n).isSome) →
      (execLoop o k b i c r tr l).outcome = .ok () ∧
      (execLoop o k b i c r tr l).trace.map (·.tname) = tr.map (·.tname) ++ l := by
  intro l
  induction l with
  | nil => intro i c r tr _; simp [execLoop_nil]
  | cons n rest ih =>
    intro i c r tr h
    cases hl : c.lookup n with
    | none =>
      have := h n (List.mem_cons_self n rest)
      rw [hl] at this
      cases this
    | some t =>
      rw [execLoop_cons_some o k b i c r tr rest hl]
      obtain ⟨h1, h2⟩ := ih (i + 1) (c.setCalled n) (assocSet r n (o i)) _
        (fun m hm => by
          rw [lookup_setCalled_isSome]
          exact h m (List.mem_cons_of_mem n hm))
      refine ⟨h1, ?_⟩
      rw [h2]
      simp

theorem execLoop_trace_names (o : Nat → Nat) (k : KVMap) (b : Ctx) :
    ∀ (l : List String) (i : Nat) (c : Collection) (r : KVMap)
      (tr : List Invocation), ∃ l₁ l₂, l = l₁ ++ l₂ ∧
      (execLoop o k b i c r tr l).trace.map (·.tname) = tr.map (·.tname) ++ l₁ := by
  intro l
  induction l with
  | nil => intro i c r tr; exact ⟨[], [], rfl, by simp [execLoop_nil]⟩
  | cons n rest ih =>
    intro i c r tr
    cases hl : c.lookup n with
    | none =>
      refine ⟨[], n :: rest, rfl, ?_⟩
      rw [execLoop_cons_none o k b i c r tr rest hl]
      simp
    | some t =>
      obtain ⟨l₁, l₂, heq, htr⟩ := ih (i + 1) (c.setCalled n) (assocSet r n (o i))
        (tr ++ [⟨n, t,
          if t.contextualized then some (ctxUpdate b (c.configuration n))
          else none, k⟩])
      refine ⟨n :: l₁, l₂, by simp [heq], ?_⟩
      rw [execLoop_cons_some o k b i c r tr rest hl, htr]
      simp

theorem execLoop_called (o : Nat → Nat) (k : KVMap) (b : Ctx) :
    ∀ (l : List String) (i : Nat) (c : Collection) (r : KVMap)
      (tr : List Invocation),
      (∀ n ∈ tr.map (·.tname), ∃ t, c.lookup n = some t ∧ t.called = true) →
      ∀ n ∈ (execLoop o k b i c r tr l).trace.map (·.tname),
        ∃ t, (execLoop o k b i c r tr l).coll.lookup n = some t ∧ t.called = true := by
  intro l
  induction l with
  | nil =>
    intro i c r tr h
    simpa [execLoop_nil] using h
  | cons n rest ih =>
    intro i c r tr h
    cases hl : c.lookup n with
    | none =>
      rw [execLoop_cons_none o k b i c r tr rest hl]
      exact h
    | some t =>
      rw [execLoop_cons_some o k b i c r tr rest hl]
      apply ih
      intro m hm
      rw [List.map_append] at hm
      rw [lookup_setCalled]
      rcases List.mem_append.1 hm with hm | hm
      · obtain ⟨t', ht', hc⟩ := h m hm
        rw [ht']
        by_cases hmn : m = n
        · exact ⟨_, by rw [Option.map_some', if_pos hmn], rfl⟩
        · exact ⟨t', by rw [Option.map_some', if_neg hmn], hc⟩
      · simp only [List.map_cons, List.map_nil, List.mem_singleton] at hm
        subst hm
        rw [hl]
        exact ⟨_, by rw [Option.map_some', if_pos rfl], rfl⟩

theorem execLoop_results_not_mem (o : Nat → Nat) (k : KVMap) (b : Ctx) :
    ∀ (l : List String) (i : Nat) (c : Collection) (r : KVMap)
      (tr : List Invocation) (n : String), n ∉ l →
      assocGet (execLoop o k b i c r tr l).results n = assocGet r n := by
  intro l
  induction l with
  | nil => intro i c r tr n _; simp [execLoop_nil]
  | cons m rest ih =>
    intro i c r tr n hn
    cases hl : c.lookup m with
    | none => rw [execLoop_cons_none o k b i c r tr rest hl]
    | some t =>
      rw [execLoop_cons_some o k b i c r tr rest hl]
      rw [ih (i + 1) (c.setCalled m) (assocSet r m (o i)) _ n
        (fun hmem => hn (List.mem_cons_of_mem m hmem))]
      rw [assocGet_assocSet, if_neg]
      intro hmn
      exact hn (hmn ▸ List.mem_cons_self m rest)

theorem execLoop_last_result (o : Nat → Nat) (k : KVMap) (b : Ctx) (nm : String) :
    ∀ (l : List String) (i : Nat) (c : Collection) (r : KVMap)
      (tr : List Invocation), (∀ x ∈ l ++ [nm], (c.lookup x).isSome) →
      assocGet (execLoop o k b i c r tr (l ++ [nm])).results nm
        = some (o (i + l.length)) := by
  intro l
  induction l with
  | nil =>
    intro i c r tr h
    cases hl : c.lookup nm with
    | none =>
      have := h nm (by simp)
      rw [hl] at this
      cases this
    | some t =>
      rw [List.nil_append, execLoop_cons_some o k b i c r tr [] hl, execLoop_nil]
      simp [assocGet_assocSet]
  | cons a l ih =>
    intro i c r tr h
    cases hl : c.lookup a with
    | none =>
      have := h a (by simp)
      rw [hl] at this
      cases this
    | some t =>
      rw [List.cons_append, execLoop_cons_some o k b i c r tr (l ++ [nm]) hl]
      rw [ih (i + 1) (c.setCalled a) _ _
        (fun x hx => by
          rw [lookup_setCalled_isSome]
          exact h x (List.mem_cons_of_mem a hx))]
      have harg : i + 1 + l.length = i + (a :: l).length := by
        simp only [List.length_cons]
        omega
      rw [harg]

theorem execLoop_trace_inv (o : Nat → Nat) (k : KVMap) (b : Ctx)
    (cfg : List (String × KVMap)) :
    ∀ (l : List String) (i : Nat) (c : Collection) (r : KVMap)
      (tr : List Invocation), c.config = cfg →
      (∀ inv ∈ tr,
        (inv.task.contextualized = true →
          inv.ctx = some (ctxUpdate b (configLookup cfg inv.tname))) ∧
        (inv.task.contextualized = false → inv.ctx = none) ∧
        inv.kwargs = k) →
      ∀ inv ∈ (execLoop o k b i c r tr l).trace,
        (inv.task.contextualized = true →
          inv.ctx = some (ctxUpdate b (configLookup cfg inv.tname))) ∧
        (inv.task.contextualized = false → inv.ctx = none) ∧
        inv.kwargs = k := by
  intro l
  induction l with
  | nil =>
    intro i c r tr _ h
    simpa [execLoop_nil] using h
  | cons n rest ih =>
    intro i c r tr hcfg h
    cases hl : c.lookup n with
    | none =>
      rw [execLoop_cons_none o k b i c r tr rest hl]
      exact h
    | some t =>
      rw [execLoop_cons_some o k b i c r tr rest hl]
      apply ih
      · rw [setCalled_config, hcfg]
      · intro inv hinv
        rcases List.mem_append.1 hinv with hinv | hinv
        · exact h inv hinv
        · rw [List.mem_singleton] at hinv
          subst hinv
          refine ⟨fun hctx => ?_, fun hctx => ?_, rfl⟩
          · have ht : t.contextualized = true := hctx
            show (if t.contextualized = true
                then some (ctxUpdate b (c.configuration n)) else none)
              = some (ctxUpdate b (configLookup cfg n))
            rw [if_pos ht, Collection.configuration, hcfg]
          · have ht : t.contextualized = false := hctx
            show (if t.contextualized = true
                then some (ctxUpdate b (c.configuration n)) else none) = none
            rw [ht]
            simp

theorem execLoop_err (o : Nat → Nat) (k : KVMap) (b : Ctx) :
    ∀ (l : List String) (i : Nat) (c : Collection) (r : KVMap)
      (tr : List Invocation), (∃ x ∈ l, c.lookup x = none) →
      ∃ x, c.lookup x = none ∧
        (execLoop o k b i c r tr l).outcome = .error (.taskNotFound x) := by
  intro l
  induction l with
  | nil =>
    rintro i c r tr ⟨x, hx, -⟩
    cases hx
  | cons n rest ih =>
    rintro i c r tr ⟨x, hx, hnone⟩
    cases hl : c.lookup n with
    | none =>
      exact ⟨n, hl, by rw [execLoop_cons_none o k b i c r tr rest hl]⟩
    | some t =>
      rcases List.mem_cons.1 hx with rfl | hx
      · rw [hl] at hnone; cases hnone
      · obtain ⟨x', hx', hout⟩ := ih (i + 1) (c.setCalled n) (assocSet r n (o i))
          (tr ++ [⟨n, t,
            if t.contextualized then some (ctxUpdate b (c.configuration n))
            else none, k⟩])
          ⟨x, hx, by rw [lookup_setCalled, hnone]; rfl⟩
        refine ⟨x', ?_, ?_⟩
        · rw [lookup_setCalled] at hx'
          exact Option.map_eq_none'.1 hx'
        · rw [execLoop_cons_some o k b i c r tr rest hl]
          exact hout

/-! ### Unfolding the top-level execute -/

theorem execute_root_none (e : Executor) (o : Nat → Nat) (ko : Option KVMap)
    (name : String) (d : Bool) (h : e.collection.lookup name = none) :
    e.execute o name ko d = ⟨.error (.taskNotFound name), e.collection, []⟩ := by
  simp [Executor.execute, h]

theorem execute_filter_err (e : Executor) (o : Nat → Nat) (ko : Option KVMap)
    (name : String) {task : Task} {err : ExecError}
    (hroot : e.collection.lookup name = some task)
    (hf : filterCalled e.collection (compact (task.pre ++ [name])) = .error err) :
    e.execute o name ko true = ⟨.error err, e.collection, []⟩ := by
  simp [Executor.execute, hroot, hf]

theorem execute_of_tasks (e : Executor) (o : Nat → Nat) (ko : Option KVMap)
    (name : String) (d : Bool) {task : Task} {tasks : List String}
    (hroot : e.collection.lookup name = some task)
    (htasks : (if d then filterCalled e.collection (compact (task.pre ++ [name]))
        else .ok (task.pre ++ [name])) = .ok tasks) :
    (e.execute o name ko d).coll
        = (execLoop o (ko.getD []) e.context 0 e.collection [] [] tasks).coll ∧
    (e.execute o name ko d).trace
        = (execLoop o (ko.getD []) e.context 0 e.collection [] [] tasks).trace ∧
    (e.execute o name ko d).result
        = (match (execLoop o (ko.getD []) e.context 0 e.collection [] [] tasks).outcome with
          | .error err => .error err
          | .ok _ =>
            match assocGet
                (execLoop o (ko.getD []) e.context 0 e.collection [] [] tasks).results
                name with
            | none => .error .missingResult
            | some v => .ok v) := by
  rcases hlo : execLoop o (ko.getD []) e.context 0 e.collection [] [] tasks with
    ⟨outc, coll', results, trace⟩
  cases outc with
  | error err =>
    simp [Executor.execute, hroot, htasks, hlo]
  | ok u =>
    cases u
    cases hag : assocGet results name <;>
      simp [Executor.execute, hroot, htasks, hlo, hag]

/-! ### Remaining mapping lemmas -/

theorem assocGet_eq_none_of_not_mem (m : KVMap) (k : String)
    (h : k ∉ m.map Prod.fst) : assocGet m k = none := by
  induction m with
  | nil => rfl
  | cons p rest ih =>
    obtain ⟨k', v'⟩ := p
    simp only [List.map_cons, List.mem_cons] at h
    push_neg at h
    rw [assocGet, if_neg (fun hh => h.1 hh.symm)]
    exact ih h.2

theorem assocGet_ctxUpdate (m : KVMap) :
    ∀ (b : Ctx) (k : String), (m.map Prod.fst).Nodup →
      assocGet (ctxUpdate b m) k
        = match assocGet m k with
          | some v => some v
          | none => assocGet b k := by
  induction m with
  | nil => intro b k _; simp [ctxUpdate, assocGet]
  | cons p m ih =>
    intro b k hnd
    obtain ⟨k₀, v₀⟩ := p
    simp only [List.map_cons, List.nodup_cons] at hnd
    have step : ctxUpdate b ((k₀, v₀) :: m) = ctxUpdate (assocSet b k₀ v₀) m := rfl
    rw [step, ih (assocSet b k₀ v₀) k hnd.2]
    by_cases hk : k₀ = k
    · subst hk
      have hnone : assocGet m k₀ = none :=
        assocGet_eq_none_of_not_mem m k₀ hnd.1
      rw [hnone, assocGet, if_pos rfl, assocGet_assocSet, if_pos rfl]
    · rw [assocGet, if_neg hk]
      cases hm : assocGet m k with
      | some v => rfl
      | none => rw [assocGet_assocSet, if_neg hk]

/-! ### Per-call helper lemmas -/

theorem execute_trace_nodup (e : Executor) (o : Nat → Nat) (ko : Option KVMap)
    (name : String) :
    ((e.execute o name ko true).trace.map (·.tname)).Nodup := by
  cases hroot : e.collection.lookup name with
  | none =>
    rw [execute_root_none e o ko name true hroot]
    simp
  | some task =>
    cases hf : filterCalled e.collection (compact (task.pre ++ [name])) with
    | error err =>
      rw [execute_filter_err e o ko name hroot hf]
      simp
    | ok tasks =>
      have htasks :
          (if true then filterCalled e.collection (compact (task.pre ++ [name]))
            else .ok (task.pre ++ [name])) = .ok tasks := by
        simp [hf]
      obtain ⟨-, htr, -⟩ := execute_of_tasks e o ko name true hroot htasks
      rw [htr]
      obtain ⟨l₁, l₂, heq, hnames⟩ :=
        execLoop_trace_names o (ko.getD []) e.context tasks 0 e.collection [] []
      rw [hnames]
      simp only [List.map_nil, List.nil_append]
      have hsub : l₁.Sublist tasks := heq ▸ List.sublist_append_left l₁ l₂
      exact hsub.nodup (filterCalled_nodup e.collection (compact_nodup _) hf)

theorem execute_called_after (e : Executor) (o : Nat → Nat) (ko : Option KVMap)
    (name : String) (d : Bool) :
    ∀ x ∈ (e.execute o name ko d).trace.map (·.tname),
      ∃ t, (e.execute o name ko d).coll.lookup x = some t ∧ t.called = true := by
  cases hroot : e.collection.lookup name with
  | none =>
    rw [execute_root_none e o ko name d hroot]
    simp
  | some task =>
    cases d with
    | false =>
      have htasks :
          (if false then filterCalled e.collection (compact (task.pre ++ [name]))
            else .ok (task.pre ++ [name])) = .ok (task.pre ++ [name]) := by
        simp
      obtain ⟨hc, htr, -⟩ := execute_of_tasks e o ko name false hroot htasks
      rw [hc, htr]
      exact execLoop_called o (ko.getD []) e.context _ 0 e.collection [] []
        (by simp)
    | true =>
      cases hf : filterCalled e.collection (compact (task.pre ++ [name])) with
      | error err =>
        rw [execute_filter_err e o ko name hroot hf]
        simp
      | ok tasks =>
        have htasks :
            (if true then filterCalled e.collection (compact (task.pre ++ [name]))
              else .ok (task.pre ++ [name])) = .ok tasks := by
          simp [hf]
        obtain ⟨hc, htr, -⟩ := execute_of_tasks e o ko name true hroot htasks
        rw [hc, htr]
        exact execLoop_called o (ko.getD []) e.context tasks 0 e.collection [] []
          (by simp)

theorem execute_trace_uncalled (e : Executor) (o : Nat → Nat) (ko : Option KVMap)
    (name : String) :
    ∀ x ∈ (e.execute o name ko true).trace.map (·.tname),
      ∃ t, e.collection.lookup x = some t ∧ t.called = false := by
  cases hroot : e.collection.lookup name with
  | none =>
    rw [execute_root_none e o ko name true hroot]
    simp
  | some task =>
    cases hf : filterCalled e.collection (compact (task.pre ++ [name])) with
    | error err =>
      rw [execute_filter_err e o ko name hroot hf]
      simp
    | ok tasks =>
      have htasks :
          (if true then filterCalled e.collection (compact (task.pre ++ [name]))
            else .ok (task.pre ++ [name])) = .ok tasks := by
        simp [hf]
      obtain ⟨-, htr, -⟩ := execute_of_tasks e o ko name true hroot htasks
      rw [htr]
      intro x hx
      obtain ⟨l₁, l₂, heq, hnames⟩ :=
        execLoop_trace_names o (ko.getD []) e.context tasks 0 e.collection [] []
      rw [hnames] at hx
      simp only [List.map_nil, List.nil_append] at hx
      have hxt : x ∈ tasks := heq ▸ List.mem_append_left l₂ hx
      exact (filterCalled_ok_mem e.collection hf x hxt).2

theorem execute_trace_facts (e : Executor) (o : Nat → Nat) (ko : Option KVMap)
    (name : String) (d : Bool) :
    ∀ inv ∈ (e.execute o name ko d).trace,
      (inv.task.contextualized = true →
        inv.ctx = some (ctxUpdate e.context (e.collection.configuration inv.tname))) ∧
      (inv.task.contextualized = false → inv.ctx = none) ∧
      inv.kwargs = ko.getD [] := by
  cases hroot : e.collection.lookup name with
  | none =>
    rw [execute_root_none e o ko name d hroot]
    simp
  | some task =>
    have main : ∀ (tasks : List String),
        (if d then filterCalled e.collection (compact (task.pre ++ [name]))
          else .ok (task.pre ++ [name])) = .ok tasks →
        ∀ inv ∈ (e.execute o name ko d).trace,
          (inv.task.contextualized = true →
            inv.ctx
              = some (ctxUpdate e.context (e.collection.configuration inv.tname))) ∧
          (inv.task.contextualized = false → inv.ctx = none) ∧
          inv.kwargs = ko.getD [] := by
      intro tasks htasks inv hinv
      obtain ⟨-, htr, -⟩ := execute_of_tasks e o ko name d hroot htasks
      rw [htr] at hinv
      exact execLoop_trace_inv o (ko.getD []) e.context e.collection.config tasks
        0 e.collection [] [] rfl (by simp) inv hinv
    cases d with
    | false => exact main (task.pre ++ [name]) (by simp)
    | true =>
      cases hf : filterCalled e.collection (compact (task.pre ++ [name])) with
      | error err =>
        rw [execute_filter_err e o ko name hroot hf]
        simp
      | ok tasks => exact main tasks (by simp [hf])

/-! ### Concrete fixtures used to witness the theorems -/

/-- A collection with two plain prerequisites and a root: `B`, contextualized
`C` (with per-task configuration), and `T` with `pre = [B, C]`. -/
def sampleColl : Collection :=
  ⟨[("B", ⟨"B", [], false, false⟩), ("C", ⟨"C", [], true, false⟩),
    ("T", ⟨"T", ["B", "C"], false, false⟩)], [("C", [("k", 7)])]⟩

/-- An executor over `sampleColl` whose base context sets `k` and `j`. -/
def sampleExec : Executor := ⟨sampleColl, [("k", 1), ("j", 2)]⟩

/-- A collection whose root `T` is already called; its prerequisite `B`
is not. -/
def calledColl : Collection :=
  ⟨[("B", ⟨"B", [], false, false⟩), ("T", ⟨"T", ["B"], false, true⟩)], []⟩

/-- An executor over `calledColl`. -/
def calledExec : Executor := ⟨calledColl, []⟩

/-- A collection whose root `T` lists itself as a prerequisite. -/
def loopColl : Collection :=
  ⟨[("B", ⟨"B", [], false, false⟩), ("T", ⟨"T", ["T", "B"], false, false⟩)], []⟩

/-- An executor over `loopColl`. -/
def loopExec : Executor := ⟨loopColl, []⟩

/-- A collection with a duplicated, already-called prerequisite. -/
def dupColl : Collection :=
  ⟨[("B", ⟨"B", [], false, true⟩), ("T", ⟨"T", ["B", "B"], false, false⟩)], []⟩

/-- An executor over `dupColl`. -/
def dupExec : Executor := ⟨dupColl, []⟩

/-! ### The claims -/

/-- C1: for every task `T` whose prerequisite list is `[P1, ..., Pn]` with all
names resolvable, all tasks uncalled and the names pairwise distinct,
`execute(T.name)` invokes exactly `P1, ..., Pn, T` in that order and nothing
else (the trace is exactly that list, so prerequisites of prerequisites are
never invoked), for either value of `dedupe`. -/
theorem execute_invokes_pre_chain_in_order (e : Executor) (o : Nat → Nat)
    (ko : Option KVMap) (d : Bool) (name : String) (task : Task)
    (hroot : e.collection.lookup name = some task)
    (hnodup : (task.pre ++ [name]).Nodup)
    (hres : ∀ n ∈ task.pre ++ [name],
      (e.collection.lookup n).map (·.called) = some false) :
    (e.execute o name ko d).trace.map (·.tname) = task.pre ++ [name] := by
  have hres' : ∀ n ∈ task.pre ++ [name],
      ∃ t, e.collection.lookup n = some t ∧ t.called = false := by
    intro n hn
    obtain ⟨t, ht, hc⟩ := Option.map_eq_some'.1 (hres n hn)
    exact ⟨t, ht, hc⟩
  have hsome : ∀ n ∈ task.pre ++ [name], (e.collection.lookup n).isSome := by
    intro n hn
    obtain ⟨t, ht, -⟩ := hres' n hn
    simp [ht]
  have htasks : (if d then filterCalled e.collection (compact (task.pre ++ [name]))
      else .ok (task.pre ++ [name])) = .ok (task.pre ++ [name]) := by
    cases d with
    | false => simp
    | true =>
      simp only [if_pos]
      rw [compact_of_nodup _ hnodup]
      exact filterCalled_id e.collection hres'
  obtain ⟨-, htr, -⟩ := execute_of_tasks e o ko name d hroot htasks
  rw [htr,
    (execLoop_ok o (ko.getD []) e.context (task.pre ++ [name]) 0 e.collection
      [] [] hsome).2]
  simp

/-- C1 witness: on `sampleExec` (root `T`, `pre = [B, C]`, all uncalled and
distinct) the invocation order is `[B, C, T]`. -/
theorem execute_invokes_pre_chain_in_order_witness :
    sampleExec.collection.lookup "T" = some ⟨"T", ["B", "C"], false, false⟩ ∧
    (sampleExec.execute (fun i => i) "T" none true).trace.map (·.tname)
      = ["B", "C", "T"] :=
  ⟨by decide,
    execute_invokes_pre_chain_in_order sampleExec (fun i => i) none true "T"
      ⟨"T", ["B", "C"], false, false⟩ (by decide) (by decide) (by decide)⟩

/-- C2: if dedupe is on and the root task is already `called` when `execute`
starts (and its prerequisite names resolve), the root is filtered out of the
execution list — no invocation in this call carries its name, so no result
for it is computed — and `execute` fails with the lookup error
`missingResult` instead of returning a value. -/
theorem execute_called_root_missing_result (e : Executor) (o : Nat → Nat)
    (ko : Option KVMap) (name : String) (task : Task)
    (hroot : e.collection.lookup name = some task)
    (hcalled : task.called = true)
    (hres : ∀ n ∈ task.pre, (e.collection.lookup n).isSome) :
    (e.execute o name ko true).result = .error .missingResult ∧
    ∀ inv ∈ (e.execute o name ko true).trace, inv.tname ≠ name := by
  have hresC : ∀ n ∈ compact (task.pre ++ [name]), (e.collection.lookup n).isSome := by
    intro n hn
    rcases List.mem_append.1 ((mem_compact n _).1 hn) with hn | hn
    · exact hres n hn
    · rw [List.mem_singleton] at hn
      subst hn
      simp [hroot]
  obtain ⟨tasks, hf⟩ := filterCalled_isOk e.collection hresC
  have hnotmem : name ∉ tasks := by
    intro hmem
    obtain ⟨-, t, ht, hc⟩ := filterCalled_ok_mem e.collection hf name hmem
    rw [hroot] at ht
    cases ht
    rw [hcalled] at hc
    cases hc
  have htasksres : ∀ n ∈ tasks, (e.collection.lookup n).isSome :=
    fun n hn => hresC n (filterCalled_ok_mem e.collection hf n hn).1
  have hloop := execLoop_ok o (ko.getD []) e.context tasks 0 e.collection [] []
    htasksres
  have htasks : (if true then filterCalled e.collection (compact (task.pre ++ [name]))
      else .ok (task.pre ++ [name])) = .ok tasks := by
    simp [hf]
  obtain ⟨-, htr, hresu⟩ := execute_of_tasks e o ko name true hroot htasks
  constructor
  · rw [hresu, hloop.1,
      execLoop_results_not_mem o (ko.getD []) e.context tasks 0 e.collection []
        [] name hnotmem]
    rfl
  · rw [htr]
    intro inv hinv heq
    obtain ⟨l₁, l₂, hsplit, hnames⟩ :=
      execLoop_trace_names o (ko.getD []) e.context tasks 0 e.collection [] []
    have hmem : inv.tname ∈ l₁ := by
      have := List.mem_map_of_mem (·.tname) hinv
      rw [hnames] at this
      simpa using this
    exact hnotmem (heq ▸ (hsplit ▸ List.mem_append_left l₂ hmem))

/-- C2 witness: on `calledExec` (root `T` already called, prerequisite `B`
resolvable) `execute` fails with `missingResult`. -/
theorem execute_called_root_missing_result_witness :
    calledExec.collection.lookup "T" = some ⟨"T", ["B"], false, true⟩ ∧
    (calledExec.execute (fun i => i) "T" none true).result
      = .error .missingResult :=
  ⟨by decide,
    (execute_called_root_missing_result calledExec (fun i => i) none "T"
      ⟨"T", ["B"], false, true⟩ (by decide) rfl (by decide)).1⟩

/-- C3: if the root name does not resolve, or any prerequisite name of the
resolved root does not resolve, `execute` fails with `taskNotFound` for some
unresolvable name — no value is returned — for every value of `dedupe`. -/
theorem execute_unresolvable_raises (e : Executor) (o : Nat → Nat)
    (ko : Option KVMap) (name : String) (d : Bool)
    (h : e.collection.lookup name = none ∨
      ∃ task, e.collection.lookup name = some task ∧
        ∃ b ∈ task.pre, e.collection.lookup b = none) :
    ∃ b, e.collection.lookup b = none ∧
      (e.execute o name ko d).result = .error (.taskNotFound b) := by
  rcases h with hroot | ⟨task, hroot, b, hb, hnone⟩
  · exact ⟨name, hroot, by rw [execute_root_none e o ko name d hroot]⟩
  · cases d with
    | true =>
      obtain ⟨b', hb', herr⟩ := filterCalled_err e.collection
        ⟨b, (mem_compact b _).2 (List.mem_append_left _ hb), hnone⟩
      exact ⟨b', hb', by rw [execute_filter_err e o ko name hroot herr]⟩
    | false =>
      have htasks : (if false then
          filterCalled e.collection (compact (task.pre ++ [name]))
          else .ok (task.pre ++ [name])) = .ok (task.pre ++ [name]) := by simp
      obtain ⟨-, -, hresu⟩ := execute_of_tasks e o ko name false hroot htasks
      obtain ⟨b', hb', hout⟩ := execLoop_err o (ko.getD []) e.context
        (task.pre ++ [name]) 0 e.collection [] []
        ⟨b, List.mem_append_left _ hb, hnone⟩
      refine ⟨b', hb', ?_⟩
      rw [hresu, hout]

/-- C3 witness: `"Z"` does not resolve in `sampleColl`, and executing it
fails with `taskNotFound "Z"`. -/
theorem execute_unresolvable_raises_witness :
    sampleExec.collection.lookup "Z" = none ∧
    (sampleExec.execute (fun i => i) "Z" none true).result
      = .error (.taskNotFound "Z") := by
  obtain ⟨b, hb, hr⟩ := execute_unresolvable_raises sampleExec (fun i => i) none
    "Z" true (Or.inl (by decide))
  have h2 : (sampleExec.execute (fun i => i) "Z" none true).result
      = .error (.taskNotFound "Z") := by decide
  exact ⟨by decide, h2⟩

/-- C4: with dedupe on, exact duplicate names in `pre + [root]` are collapsed
to a single occurrence at the position of their first occurrence, preserving
the relative order of the remaining names (`compact` equals the
keep-first-occurrence reference `specCompact`); concretely, `pre = [B, B, C]`
yields the ordered list `[B, C, T]`, and executing such a root invokes
exactly `[B, C, T]`. -/
theorem compact_collapses_duplicates_first_occurrence :
    (∀ l : List String, compact l = specCompact l) ∧
    compact (["B", "B", "C"] ++ ["T"]) = ["B", "C", "T"] ∧
    (Executor.execute
      ⟨⟨[("B", ⟨"B", [], false, false⟩), ("C", ⟨"C", [], false, false⟩),
         ("T", ⟨"T", ["B", "B", "C"], false, false⟩)], []⟩, []⟩
      (fun i => i) "T" none true).trace.map (·.tname) = ["B", "C", "T"] :=
  ⟨compact_eq_specCompact, by decide, by decide⟩

/-- C5: with dedupe on, every name whose resolved task already has
`called = true` is removed from the compacted list by the already-called
filter and is never invoked in this call. -/
theorem execute_dedupe_filters_called_tasks (e : Executor) (o : Nat → Nat)
    (ko : Option KVMap) (name : String) (task : Task) (n : String)
    (_hroot : e.collection.lookup name = some task)
    (hcalled : (e.collection.lookup n).map (·.called) = some true) :
    (∀ ts, filterCalled e.collection (compact (task.pre ++ [name])) = .ok ts →
      n ∉ ts) ∧
    ∀ inv ∈ (e.execute o name ko true).trace, inv.tname ≠ n := by
  obtain ⟨t, ht, htc⟩ := Option.map_eq_some'.1 hcalled
  constructor
  · intro ts hts hmem
    obtain ⟨-, t', ht', hc'⟩ := filterCalled_ok_mem e.collection hts n hmem
    rw [ht] at ht'
    cases ht'
    rw [htc] at hc'
    cases hc'
  · intro inv hinv heq
    obtain ⟨t', ht', hc'⟩ := execute_trace_uncalled e o ko name inv.tname
      (List.mem_map_of_mem (·.tname) hinv)
    rw [heq, ht] at ht'
    cases ht'
    rw [htc] at hc'
    cases hc'

/-- C5 witness: in `calledExec` the task `T` is already called; executing
`B` with dedupe keeps `T` out of the filtered list (`[B]`) and out of the
trace (whose only invocation is `B`). -/
theorem execute_dedupe_filters_called_tasks_witness :
    calledExec.collection.lookup "B" = some ⟨"B", [], false, false⟩ ∧
    (calledExec.collection.lookup "T").map (·.called) = some true ∧
    ("T" : String) ∉ (["B"] : List String) ∧
    (⟨"B", ⟨"B", [], false, false⟩, none, []⟩ : Invocation).tname ≠ "T" := by
  have h := execute_dedupe_filters_called_tasks calledExec (fun i => i) none "B"
    ⟨"B", [], false, false⟩ "T" (by decide) (by decide)
  exact ⟨by decide, by decide, h.1 ["B"] (by decide), h.2 _ (by decide)⟩

/-- C6: with dedupe off, `execute` runs the full list `pre + [root]`
unmodified — duplicate names and already-called tasks are kept and every
occurrence in the list is invoked, in order — provided every name
resolves. -/
theorem execute_no_dedupe_runs_full_list (e : Executor) (o : Nat → Nat)
    (ko : Option KVMap) (name : String) (task : Task)
    (hroot : e.collection.lookup name = some task)
    (hres : ∀ x ∈ task.pre ++ [name], (e.collection.lookup x).isSome) :
    (e.execute o name ko false).trace.map (·.tname) = task.pre ++ [name] := by
  have htasks : (if false then
      filterCalled e.collection (compact (task.pre ++ [name]))
      else .ok (task.pre ++ [name])) = .ok (task.pre ++ [name]) := by simp
  obtain ⟨-, htr, -⟩ := execute_of_tasks e o ko name false hroot htasks
  rw [htr,
    (execLoop_ok o (ko.getD []) e.context (task.pre ++ [name]) 0 e.collection
      [] [] hres).2]
  simp

/-- C6 witness: on `dupExec` (`T.pre = [B, B]` with `B` already called),
dedupe off invokes every occurrence: `[B, B, T]`. -/
theorem execute_no_dedupe_runs_full_list_witness :
    dupExec.collection.lookup "T" = some ⟨"T", ["B", "B"], false, false⟩ ∧
    (dupExec.execute (fun i => i) "T" none false).trace.map (·.tname)
      = ["B", "B", "T"] :=
  ⟨by decide,
    execute_no_dedupe_runs_full_list dupExec (fun i => i) none "T"
      ⟨"T", ["B", "B"], false, false⟩ (by decide) (by decide)⟩

/-- C7: every contextualized task in the chain receives as leading argument
the clone of the executor's base context merged with
`collection.configuration(name)`; a non-contextualized task receives no
context argument; and in the merged context the configuration keys override
the base keys on conflict (lookup in the merge prefers the configuration
entry and falls back to the base). -/
theorem execute_context_argument_merged (e : Executor) (o : Nat → Nat)
    (ko : Option KVMap) (name : String) (d : Bool) :
    (∀ inv ∈ (e.execute o name ko d).trace,
      (inv.task.contextualized = true →
        inv.ctx
          = some (ctxUpdate e.context (e.collection.configuration inv.tname))) ∧
      (inv.task.contextualized = false → inv.ctx = none)) ∧
    (∀ (b m : KVMap) (k : String), (m.map Prod.fst).Nodup →
      assocGet (ctxUpdate b m) k
        = match assocGet m k with
          | some v => some v
          | none => assocGet b k) := by
  constructor
  · intro inv hinv
    obtain ⟨h1, h2, -⟩ := execute_trace_facts e o ko name d inv hinv
    exact ⟨h1, h2⟩
  · exact fun b m k h => assocGet_ctxUpdate m b k h

/-- C7 witness: in `sampleExec`, executing `T` invokes the contextualized
`C` with the base context `[(k, 1), (j, 2)]` merged with `C`'s configuration
`[(k, 7)]`: the configuration value of `k` overrides the base one. -/
theorem execute_context_argument_merged_witness :
    (⟨"C", ⟨"C", [], true, false⟩, some [("k", 7), ("j", 2)], []⟩
        : Invocation).ctx
      = some (ctxUpdate sampleExec.context (sampleExec.collection.configuration "C")) ∧
    assocGet (ctxUpdate sampleExec.context (sampleExec.collection.configuration "C"))
        "k" = some 7 := by
  have h := execute_context_argument_merged sampleExec (fun i => i) none "T" true
  exact ⟨(h.1 ⟨"C", ⟨"C", [], true, false⟩, some [("k", 7), ("j", 2)], []⟩
    (by decide)).1 rfl, by decide⟩

/-- C8: with dedupe on, running `execute` twice on the same task name with no
session reset (the second call sees the collection state mutated by the
first, invocation having set each invoked task's `called` flag) invokes
every name at most once in total across both calls. -/
theorem execute_twice_invokes_at_most_once (e : Executor) (o₁ o₂ : Nat → Nat)
    (ko₁ ko₂ : Option KVMap) (name n : String) :
    ((e.execute o₁ name ko₁ true).trace.map (·.tname)
      ++ ((Executor.mk (e.execute o₁ name ko₁ true).coll e.context).execute
          o₂ name ko₂ true).trace.map (·.tname)).count n ≤ 1 := by
  have hA : ((e.execute o₁ name ko₁ true).trace.map (·.tname)).Nodup :=
    execute_trace_nodup e o₁ ko₁ name
  have hB := execute_trace_nodup
    (Executor.mk (e.execute o₁ name ko₁ true).coll e.context) o₂ ko₂ name
  have hdisj : ∀ x, x ∈ (e.execute o₁ name ko₁ true).trace.map (·.tname) →
      x ∉ ((Executor.mk (e.execute o₁ name ko₁ true).coll e.context).execute
        o₂ name ko₂ true).trace.map (·.tname) := by
    intro x hxA hxB
    obtain ⟨t, ht, hc⟩ := execute_called_after e o₁ ko₁ name true x hxA
    obtain ⟨t', ht', hc'⟩ := execute_trace_uncalled
      (Executor.mk (e.execute o₁ name ko₁ true).coll e.context) o₂ ko₂ name x hxB
    rw [show (Executor.mk (e.execute o₁ name ko₁ true).coll e.context).collection
      = (e.execute o₁ name ko₁ true).coll from rfl] at ht'
    rw [ht] at ht'
    cases ht'
    rw [hc] at hc'
    cases hc'
  rw [List.count_append]
  by_cases hn : n ∈ (e.execute o₁ name ko₁ true).trace.map (·.tname)
  · have hzero : (((Executor.mk (e.execute o₁ name ko₁ true).coll
        e.context).execute o₂ name ko₂ true).trace.map (·.tname)).count n = 0 :=
      List.count_eq_zero.2 (hdisj n hn)
    have hone := List.nodup_iff_count_le_one.1 hA n
    omega
  · have hzero : ((e.execute o₁ name ko₁ true).trace.map (·.tname)).count n = 0 :=
      List.count_eq_zero.2 hn
    have hone := List.nodup_iff_count_le_one.1 hB n
    omega

/-- C9: the keyword mapping supplied to `execute` (defaulting to the empty
mapping when omitted) is forwarded identically to every task invoked in the
chain, prerequisites and root alike. -/
theorem execute_forwards_kwargs_to_all (e : Executor) (o : Nat → Nat)
    (ko : Option KVMap) (name : String) (d : Bool) :
    ∀ inv ∈ (e.execute o name ko d).trace, inv.kwargs = ko.getD [] := by
  intro inv hinv
  exact (execute_trace_facts e o ko name d inv hinv).2.2

/-- C9 witness: executing `T` on `sampleExec` with kwargs `[(a, 3)]`, the
prerequisite `B`'s invocation carries exactly that keyword mapping. -/
theorem execute_forwards_kwargs_to_all_witness :
    (⟨"B", ⟨"B", [], false, false⟩, none, [("a", 3)]⟩ : Invocation).kwargs
      = (some [("a", 3)] : Option KVMap).getD [] :=
  execute_forwards_kwargs_to_all sampleExec (fun i => i) (some [("a", 3)]) "T"
    true ⟨"B", ⟨"B", [], false, false⟩, none, [("a", 3)]⟩ (by decide)

/-- C10: with dedupe off, when the root's name also occurs in its own `pre`
list (so it occurs more than once in the executed list), the root is invoked
more than once and `execute` returns the result of the last invocation of
the root — the oracle value at index `pre.length`, the final position of the
list — because later invocations overwrite earlier entries under the same
key in the results record. -/
theorem execute_no_dedupe_returns_last_root_result (e : Executor)
    (o : Nat → Nat) (ko : Option KVMap) (name : String) (task : Task)
    (hroot : e.collection.lookup name = some task)
    (hpre : name ∈ task.pre)
    (hres : ∀ x ∈ task.pre, (e.collection.lookup x).isSome) :
    (e.execute o name ko false).result = .ok (o task.pre.length) ∧
    2 ≤ ((e.execute o name ko false).trace.map (·.tname)).count name := by
  have hresL : ∀ x ∈ task.pre ++ [name], (e.collection.lookup x).isSome := by
    intro x hx
    rcases List.mem_append.1 hx with hx | hx
    · exact hres x hx
    · rw [List.mem_singleton] at hx
      subst hx
      simp [hroot]
  have htasks : (if false then
      filterCalled e.collection (compact (task.pre ++ [name]))
      else .ok (task.pre ++ [name])) = .ok (task.pre ++ [name]) := by simp
  obtain ⟨-, htr, hresu⟩ := execute_of_tasks e o ko name false hroot htasks
  have hloop := execLoop_ok o (ko.getD []) e.context (task.pre ++ [name]) 0
    e.collection [] [] hresL
  constructor
  · rw [hresu, hloop.1,
      execLoop_last_result o (ko.getD []) e.context name task.pre 0 e.collection
        [] [] hresL]
    have hz : 0 + task.pre.length = task.pre.length := Nat.zero_add _
    rw [hz]
  · rw [htr, hloop.2]
    simp only [List.map_nil, List.nil_append]
    rw [List.count_append]
    have h1 : 1 ≤ task.pre.count name := List.one_le_count_iff.2 hpre
    have h2 : List.count name [name] = 1 := by simp
    omega

/-- C10 witness: on `loopExec` (`T.pre = [T, B]`, dedupe off) the trace is
`[T, B, T]` — the root runs twice — and the returned value is the oracle
value of the last invocation (index 2). -/
theorem execute_no_dedupe_returns_last_root_result_witness :
    loopExec.collection.lookup "T" = some ⟨"T", ["T", "B"], false, false⟩ ∧
    ("T" : String) ∈ (["T", "B"] : List String) ∧
    (loopExec.execute (fun i => i + 100) "T" none false).result = .ok 102 ∧
    2 ≤ ((loopExec.execute (fun i => i + 100) "T" none false).trace.map
      (·.tname)).count "T" := by
  have h := execute_no_dedupe_returns_last_root_result loopExec
    (fun i => i + 100) none "T" ⟨"T", ["T", "B"], false, false⟩ (by decide)
    (by decide) (by decide)
  exact ⟨by decide, by decide, h.1, h.2⟩

end Invoke
